import Mathlib

/-!
Shallow embedding of the object model of `libgit-rs` (files `blob.rs`,
`mode.rs`, `oid.rs`, `tree.rs`).  Byte strings are modelled as `List Nat`
with every element below 256; machine integers are `Nat` with explicit
`% 2 ^ w` where overflow matters.
-/

namespace LibGit

/-- Euclidean helper: ASCII decimal digits of `n`, most significant first,
with recursion fuel.  This embeds Rust `usize::to_string` (used by
`Blob::as_bytes` and `Tree::as_bytes` for the length header): standard
decimal, no leading zeros, `0` rendered as the single digit `"0"`. -/
def decAsciiAux : Nat → Nat → List Nat
  | 0, _ => []
  | fuel + 1, n =>
    if n < 10 then [48 + n]
    else decAsciiAux fuel (n / 10) ++ [48 + n % 10]

/-- ASCII decimal representation of a `usize`, as produced by
Rust `to_string`. -/
def decimalAscii (n : Nat) : List Nat := decAsciiAux (n + 1) n

/-- Numeric value of a list of ASCII decimal digits (big-endian). -/
def digitsVal (ds : List Nat) : Nat :=
  ds.foldl (fun acc d => acc * 10 + (d - 48)) 0

/-! ### SHA-1 digest (external collaborator)

The `sha1` crate is an external dependency; the spec treats the digest as a
pluggable collaborator producing a 160-bit output.  We embed the standard
SHA-1 algorithm (FIPS 180) over byte lists, with 32-bit words as `Nat`
reduced `% 2 ^ 32`. -/

/-- Modulus for 32-bit words. -/
def M32 : Nat := 4294967296

/-- Left rotation of a 32-bit word. -/
def rotl (x b : Nat) : Nat :=
  ((x <<< b) % M32) ||| (x >>> (32 - b))

/-- SHA-1 padding: append `0x80`, zero bytes to reach 56 mod 64, then the
bit length as 8 big-endian bytes. -/
def sha1pad (msg : List Nat) : List Nat :=
  let L := msg.length
  let z := (119 - L % 64) % 64
  let bitLen := 8 * L
  msg ++ [128] ++ List.replicate z 0 ++
    [(bitLen >>> 56) % 256, (bitLen >>> 48) % 256, (bitLen >>> 40) % 256,
     (bitLen >>> 32) % 256, (bitLen >>> 24) % 256, (bitLen >>> 16) % 256,
     (bitLen >>> 8) % 256, bitLen % 256]

/-- Group bytes into big-endian 32-bit words. -/
def bytesToWords : List Nat → List Nat
  | b0 :: b1 :: b2 :: b3 :: rest =>
    (b0 <<< 24 + b1 <<< 16 + b2 <<< 8 + b3) :: bytesToWords rest
  | _ => []

/-- Message-schedule expansion: `acc` holds the words most recent first;
each step prepends `rotl (w3 xor w8 xor w14 xor w16) 1`. -/
def sha1Extend : Nat → List Nat → List Nat
  | 0, acc => acc.reverse
  | fuel + 1, acc =>
    let w := rotl ((acc.getD 2 0) ^^^ (acc.getD 7 0) ^^^ (acc.getD 13 0) ^^^ (acc.getD 15 0)) 1
    sha1Extend fuel (w :: acc)

/-- One SHA-1 round per scheduled word, with the round index threading the
choice of boolean function and constant. -/
def sha1Rounds : Nat → List Nat → Nat × Nat × Nat × Nat × Nat → Nat × Nat × Nat × Nat × Nat
  | _, [], st => st
  | i, w :: ws, (a, b, c, d, e) =>
    let f :=
      if i < 20 then (b &&& c) ||| ((b ^^^ 4294967295) &&& d)
      else if i < 40 then b ^^^ c ^^^ d
      else if i < 60 then (b &&& c) ||| (b &&& d) ||| (c &&& d)
      else b ^^^ c ^^^ d
    let k :=
      if i < 20 then 1518500249
      else if i < 40 then 1859775393
      else if i < 60 then 2400959708
      else 3395469782
    let temp := (rotl a 5 + f + e + k + w) % M32
    sha1Rounds (i + 1) ws (temp, a, rotl b 30, c, d)

/-- Compress one 16-word block into the running hash state. -/
def sha1Compress (block : List Nat) (h : Nat × Nat × Nat × Nat × Nat) :
    Nat × Nat × Nat × Nat × Nat :=
  let ws := sha1Extend 64 block.reverse
  match h, sha1Rounds 0 ws h with
  | (h0, h1, h2, h3, h4), (a, b, c, d, e) =>
    ((h0 + a) % M32, (h1 + b) % M32, (h2 + c) % M32, (h3 + d) % M32, (h4 + e) % M32)

/-- Fold the compression function over the word stream, 16 words per block,
with the block count as fuel. -/
def sha1Blocks : Nat → List Nat → Nat × Nat × Nat × Nat × Nat → Nat × Nat × Nat × Nat × Nat
  | 0, _, h => h
  | fuel + 1, ws, h => sha1Blocks fuel (ws.drop 16) (sha1Compress (ws.take 16) h)

/-- Big-endian bytes of a 32-bit word. -/
def wordBytes (w : Nat) : List Nat :=
  [(w >>> 24) % 256, (w >>> 16) % 256, (w >>> 8) % 256, w % 256]

/-- SHA-1 digest of a byte list: 20 bytes. -/
def sha1 (msg : List Nat) : List Nat :=
  let padded := sha1pad msg
  let ws := bytesToWords padded
  match sha1Blocks (ws.length / 16) ws
      (1732584193, 4023233417, 2562383102, 271733878, 3285377520) with
  | (h0, h1, h2, h3, h4) =>
    wordBytes h0 ++ wordBytes h1 ++ wordBytes h2 ++ wordBytes h3 ++ wordBytes h4

/-! ### Mode (`mode.rs`) -/

/-- Entry modes, embedding `enum Mode` with its `u16` discriminants. -/
inductive Mode where
  | Directory
  | NonExecutableFile
  | NonExecutableGroupWriteableFile
  | ExecutableFile
  | SymbolicLink
  | GitLink
deriving DecidableEq

/-- Numeric code of a mode (`Mode as u16`). -/
def Mode.code : Mode → Nat
  | .Directory => 0o040000
  | .NonExecutableFile => 0o100644
  | .NonExecutableGroupWriteableFile => 0o100664
  | .ExecutableFile => 0o100755
  | .SymbolicLink => 0o120000
  | .GitLink => 0o160000

/-- Octal helper: ASCII octal digits of `n`, most significant first, with
recursion fuel (embedding the `{:o}` formatter). -/
def octAsciiAux : Nat → Nat → List Nat
  | 0, _ => []
  | fuel + 1, n =>
    if n < 8 then [48 + n]
    else octAsciiAux fuel (n / 8) ++ [48 + n % 8]

/-- ASCII octal representation of a `Nat`. -/
def octalAscii (n : Nat) : List Nat := octAsciiAux (n + 1) n

/-- Embedding of `Mode::octal_string`: `format!("{:06o}", self)`, i.e. the
octal digits of the code, zero-padded on the left to width 6. -/
def Mode.octal_string (m : Mode) : List Nat :=
  let s := octalAscii m.code
  List.replicate (6 - s.length) 48 ++ s

/-! ### Blob (`blob.rs`) -/

/-- Embedding of `struct Blob(BString)`: a wrapped byte string. -/
structure Blob where
  bytes : List Nat
deriving DecidableEq

/-- Embedding of `Blob::new`: wraps the bytes. -/
def Blob.new (bs : List Nat) : Blob := ⟨bs⟩

/-- Embedding of `Blob::as_bytes`:
`[b"blob ", len.to_string().as_bytes(), b"\0", content].concat()`.
`[98,108,111,98,32]` are the ASCII bytes of `"blob "`. -/
def Blob.as_bytes (b : Blob) : List Nat :=
  [98, 108, 111, 98, 32] ++ decimalAscii b.bytes.length ++ [0] ++ b.bytes

/-- Embedding of `Blob::size`. -/
def Blob.size (b : Blob) : Nat := b.bytes.length

/-- Embedding of `Blob::contents`. -/
def Blob.contents (b : Blob) : List Nat := b.bytes

/-! ### OID (`oid.rs`) -/

/-- Embedding of `struct OID([u8; 20])`.  The fixed length is a property of
the constructing functions rather than the type. -/
structure OID where
  bytes : List Nat
deriving DecidableEq

/-- Lowercase hex digit for a nibble (`0..9 → '0'..'9'`, `10..15 → 'a'..'f'`)
as used by `hex::encode`. -/
def hexDigitAscii (d : Nat) : Nat := if d < 10 then 48 + d else 87 + d

/-- Embedding of `hex::encode` (external crate): two lowercase hex
characters per byte, high nibble first. -/
def hexEncode : List Nat → List Nat
  | [] => []
  | b :: bs => hexDigitAscii (b / 16) :: hexDigitAscii (b % 16) :: hexEncode bs

/-- Embedding of `hex::FromHexError`. -/
inductive FromHexError where
  | InvalidHexCharacter (c : Nat) (index : Nat)
  | OddLength
  | InvalidStringLength
deriving DecidableEq

/-- Value of one hex character as in the `hex` crate's `val` function:
`A..F`, `a..f`, `0..9` accepted, anything else rejected. -/
def hexVal (c : Nat) : Option Nat :=
  if 65 ≤ c ∧ c ≤ 70 then some (c - 55)
  else if 97 ≤ c ∧ c ≤ 102 then some (c - 87)
  else if 48 ≤ c ∧ c ≤ 57 then some (c - 48)
  else none

/-- Pair-wise scan of `hex::decode`: index `i` counts byte pairs, errors
report the character position `2*i` or `2*i+1` of the first invalid
character, left to right. -/
def hexDecodeAux : Nat → List Nat → Except FromHexError (List Nat)
  | _, [] => .ok []
  | i, c1 :: c2 :: rest =>
    match hexVal c1 with
    | none => .error (.InvalidHexCharacter c1 (2 * i))
    | some hi =>
      match hexVal c2 with
      | none => .error (.InvalidHexCharacter c2 (2 * i + 1))
      | some lo =>
        match hexDecodeAux (i + 1) rest with
        | .error e => .error e
        | .ok bs => .ok ((hi <<< 4 ||| lo) :: bs)
  | _, [_] => .error .OddLength

/-- Embedding of `hex::decode` (external crate): odd length is rejected
first, then the pair scan runs. -/
def hexDecode (s : List Nat) : Except FromHexError (List Nat) :=
  if s.length % 2 ≠ 0 then .error .OddLength else hexDecodeAux 0 s

/-- Embedding of `HexErrorKind` from `oid.rs`. -/
inductive HexErrorKind where
  | FromHexError (e : LibGit.FromHexError)
  | TooShort (n : Nat)
deriving DecidableEq

/-- Embedding of `OIDError` from `oid.rs`. -/
inductive OIDError where
  | InvalidHex (k : HexErrorKind)
deriving DecidableEq

/-- Embedding of `OID::as_hex`: `hex::encode(self.0)`. -/
def OID.as_hex (o : OID) : List Nat := hexEncode o.bytes

/-- Embedding of `OID::from_hex`: length must be exactly 40, otherwise
`TooShort(len)`; then `hex::decode` with its error wrapped. -/
def OID.from_hex (s : List Nat) : Except OIDError OID :=
  if s.length ≠ 40 then .error (.InvalidHex (.TooShort s.length))
  else
    match hexDecode s with
    | .error e => .error (.InvalidHex (.FromHexError e))
    | .ok bs => .ok ⟨bs⟩

/-- Embedding of `impl From<Blob> for OID`: SHA-1 of `blob.as_bytes()`. -/
def oidFromBlob (b : Blob) : OID := ⟨sha1 b.as_bytes⟩

/-- Embedding of `impl From<&Blob> for OID`: SHA-1 of `blob.as_bytes()`. -/
def oidFromBlobRef (b : Blob) : OID := ⟨sha1 b.as_bytes⟩

/-- Embedding of `impl From<&mut Blob> for OID`: SHA-1 of
`blob.as_bytes()`. -/
def oidFromBlobMutRef (b : Blob) : OID := ⟨sha1 b.as_bytes⟩

/-- Embedding of `Blob::id`: `self.into()` through `From<&Blob>`. -/
def Blob.id (b : Blob) : OID := oidFromBlobRef b

/-- Case-normalization of a hex character: uppercase `A..F` mapped to
lowercase, everything else unchanged. -/
def lowerHex (c : Nat) : Nat := if 65 ≤ c ∧ c ≤ 70 then c + 32 else c

/-! ### Tree (`tree.rs`) -/

/-- Filesystem metadata snapshot of one entry, as consumed by
`Tree::as_bytes`: `meta.is_dir()`, `meta.file_type().is_symlink()` and the
raw `st_mode` word from `meta.mode()`. -/
structure Metadata where
  is_dir : Bool
  is_symlink : Bool
  st_mode : Nat
deriving DecidableEq

/-- Embedding of the `is_executable` crate (external dependency, Unix
implementation): true when any of the three execute permission bits
(`0o111`) of the file mode is set. -/
def is_executable (m : Metadata) : Bool := (m.st_mode &&& 0o111) != 0

/-- Embedding of the mode-selection chain inside `Tree::as_bytes`:
directory, else symlink, else `is_executable`, else bit 5 of `st_mode`
(`meta.mode().view_bits::<Lsb0>()[5]`), else plain file. -/
def entryMode (m : Metadata) : Mode :=
  if m.is_dir then .Directory
  else if m.is_symlink then .SymbolicLink
  else if is_executable m then .ExecutableFile
  else if m.st_mode.testBit 5 then .NonExecutableGroupWriteableFile
  else .NonExecutableFile

/-- Modelled from the spec (comparison definition for the mode-selection
claim): directory, else symlink, else the owner execute bit (`0o100`,
bit 6), else the group-write bit (`0o020`, bit 4), else plain file. -/
def entryModeSpec (m : Metadata) : Mode :=
  if m.is_dir then .Directory
  else if m.is_symlink then .SymbolicLink
  else if m.st_mode.testBit 6 then .ExecutableFile
  else if m.st_mode.testBit 4 then .NonExecutableGroupWriteableFile
  else .NonExecutableFile

/-- Embedding of `enum TreeItem { Tree(Tree), Blob(Blob) }`, with the
contained `Tree`'s `BTreeMap<PathBuf, TreeItem>` flattened to an
association list from entry-name bytes to (metadata snapshot, item); the
list ordered ascending by key is the map's iteration order. -/
inductive TreeItem where
  | blob (b : Blob)
  | tree (entries : List (List Nat × Metadata × TreeItem))

/-- Identifier bytes of a `TreeItem` (`TreeItem::id`), with fuel bounding
the nesting depth so the recursion is structural.  A `Blob` hashes its
`as_bytes`; a `Tree` hashes its `Tree::as_bytes` image
(`impl From<&Tree> for OID` is called by the source but absent from it;
the spec fixes it as the digest of the canonical encoding).
`[116,114,101,101,32]` are the ASCII bytes of `"tree "`. -/
def itemIdBytes : Nat → TreeItem → List Nat
  | 0, _ => []
  | _ + 1, .blob b => (Blob.id b).bytes
  | fuel + 1, .tree es =>
    let content :=
      (es.map (fun e =>
        (entryMode e.2.1).octal_string ++ e.1 ++ [0] ++ itemIdBytes fuel e.2.2)).flatten
    sha1 ([116, 114, 101, 101, 32] ++ decimalAscii content.length ++ [0] ++ content)

/-- Embedding of `Tree::as_bytes`: per map entry, in map order,
`[mode.octal_string(), file, b"\0", item.id()].concat()`, flattened; the
block framed by `"tree " + len.to_string() + "\0"`.  The entry's metadata
snapshot stands for `path.metadata().unwrap()`. -/
def tree_as_bytes (fuel : Nat) (es : List (List Nat × Metadata × TreeItem)) : List Nat :=
  let content :=
    (es.map (fun e =>
      (entryMode e.2.1).octal_string ++ e.1 ++ [0] ++ itemIdBytes fuel e.2.2)).flatten
  [116, 114, 101, 101, 32] ++ decimalAscii content.length ++ [0] ++ content

/-- Identifier of a directory object: digest of `Tree::as_bytes`
(`Tree::id`, through the `From` conversion the spec fixes as the digest of
the canonical encoding). -/
def treeId (fuel : Nat) (es : List (List Nat × Metadata × TreeItem)) : OID :=
  ⟨sha1 (tree_as_bytes fuel es)⟩

/-- Strict raw-byte ordering of entry names, embedding the `Ord` instance
`BTreeMap` sorts by (byte-wise lexicographic on Unix `OsStr`). -/
def nameLt : List Nat → List Nat → Bool
  | [], [] => false
  | [], _ :: _ => true
  | _ :: _, [] => false
  | a :: as, b :: bs => if a < b then true else if b < a then false else nameLt as bs

/-- Embedding of `BTreeMap::insert` on the sorted association list: place
the key at its ordered position, replacing the value when the key is
already present. -/
def btreeInsert (k : List Nat) (v : Metadata × TreeItem) :
    List (List Nat × Metadata × TreeItem) → List (List Nat × Metadata × TreeItem)
  | [] => [(k, v)]
  | (k2, v2) :: rest =>
    if nameLt k k2 then (k, v) :: (k2, v2) :: rest
    else if nameLt k2 k then (k2, v2) :: btreeInsert k v rest
    else (k, v) :: rest

/-- Populate a `BTreeMap`-backed tree from a traversal order: fold
`BTreeMap::insert` over the listed entries. -/
def buildTree (l : List (List Nat × Metadata × TreeItem)) :
    List (List Nat × Metadata × TreeItem) :=
  l.foldl (fun acc e => btreeInsert e.1 e.2 acc) []

/-- Outcomes of `Tree::from_dir` in the embedding.  Rust `todo!()` panics
rather than returning a value, so it is a distinguished outcome rather
than an `Err`. -/
inductive FromDirOutcome where
  | panicked
  | ioError (e : Nat)
  | ok (entries : List (List Nat × Metadata × TreeItem))

/-- Embedding of `Tree::from_dir`: the `WalkDir` iteration is a list of
`Except` results from the filesystem collaborator; `let entry = entry?;`
returns the first error; the loop body otherwise only computes `diff` and
prints it, and the function finally returns the still-empty tree.  The
not-a-directory branch executes `todo!()`. -/
def from_dir (isDir : Bool) (walk : List (Except Nat Unit)) : FromDirOutcome :=
  if !isDir then .panicked
  else
    match walk.findSome? (fun r => match r with | .error e => some e | .ok _ => none) with
    | some e => .ioError e
    | none => .ok []

/-! ### Directory-object construction (spec §4.3)

`Tree::from_dir` never reaches an insertion step in the source (the
population loop is unfinished), so the construction interface is modelled
from the spec. -/

/-- Modelled from the spec: error kinds `DuplicateEntryName` and
`EmptyName` of Directory Object construction (§4.3, §7); they appear in no
`src` type. -/
inductive DirError where
  | DuplicateEntryName
  | EmptyName
deriving DecidableEq

/-- Modelled from the spec: a Directory Object is populated with
`(name, mode, child_identifier)` triples; a zero-length name fails with
`EmptyName`, a name already present fails with `DuplicateEntryName`,
otherwise the entry joins the name-keyed collection.  This construction
path is absent from `src` (`Tree::from_dir` is unfinished). -/
def dirInsert (d : List (List Nat × Mode × OID)) (name : List Nat) (mode : Mode)
    (cid : OID) : Except DirError (List (List Nat × Mode × OID)) :=
  if name = [] then .error .EmptyName
  else if d.any (fun e => e.1 = name) then .error .DuplicateEntryName
  else .ok (d ++ [(name, mode, cid)])

/-- Modelled from the spec: build a Directory Object by inserting the
listed triples in order into an accumulator, stopping at the first
error. -/
def dirBuildAux (d : List (List Nat × Mode × OID)) :
    List (List Nat × Mode × OID) → Except DirError (List (List Nat × Mode × OID))
  | [] => .ok d
  | (n, m, c) :: rest =>
    match dirInsert d n m c with
    | .error e => .error e
    | .ok d2 => dirBuildAux d2 rest

/-- Modelled from the spec: construct a Directory Object from scratch from
a list of `(name, mode, child_identifier)` triples. -/
def dirBuild (l : List (List Nat × Mode × OID)) :
    Except DirError (List (List Nat × Mode × OID)) :=
  dirBuildAux [] l

/-! ### Decimal formatting lemmas -/

theorem digitsVal_append (xs ys : List Nat) :
    digitsVal (xs ++ ys) = ys.foldl (fun acc d => acc * 10 + (d - 48)) (digitsVal xs) := by
  simp [digitsVal, List.foldl_append]

theorem decAsciiAux_spec (fuel n : Nat) (h : n < fuel) :
    digitsVal (decAsciiAux fuel n) = n ∧
    decAsciiAux fuel n ≠ [] ∧
    (∀ d ∈ decAsciiAux fuel n, 48 ≤ d ∧ d ≤ 57) ∧
    (n = 0 → decAsciiAux fuel n = [48]) ∧
    (n ≠ 0 → (decAsciiAux fuel n).head? ≠ some 48) := by
  induction fuel generalizing n with
  | zero => omega
  | succ fuel ih =>
    by_cases hn : n < 10
    · refine ⟨?_, ?_, ?_, ?_, ?_⟩ <;> simp [decAsciiAux, hn, digitsVal] <;> omega
    · have hrec : n / 10 < fuel := by
        have h1 : n / 10 < n := Nat.div_lt_self (by omega) (by omega)
        omega
      obtain ⟨hval, hne, hdig, _, hlead⟩ := ih (n / 10) hrec
      have hmain : decAsciiAux (fuel + 1) n = decAsciiAux fuel (n / 10) ++ [48 + n % 10] := by
        simp [decAsciiAux, hn]
      refine ⟨?_, ?_, ?_, ?_, ?_⟩
      · rw [hmain, digitsVal_append, hval]
        simp
        omega
      · rw [hmain]; simp
      · rw [hmain]
        intro d hd
        rcases List.mem_append.mp hd with h1 | h1
        · exact hdig d h1
        · simp at h1
          have : n % 10 < 10 := Nat.mod_lt _ (by omega)
          omega
      · omega
      · intro _
        rw [hmain]
        rcases hd : decAsciiAux fuel (n / 10) with _ | ⟨a, as⟩
        · exact absurd hd hne
        · have := hlead (by omega)
          rw [hd] at this
          simpa using this

theorem decimalAscii_spec (n : Nat) :
    digitsVal (decimalAscii n) = n ∧
    decimalAscii n ≠ [] ∧
    (∀ d ∈ decimalAscii n, 48 ≤ d ∧ d ≤ 57) ∧
    (n = 0 → decimalAscii n = [48]) ∧
    (n ≠ 0 → (decimalAscii n).head? ≠ some 48) :=
  decAsciiAux_spec (n + 1) n (Nat.lt_succ_self n)

/-! ### Hex lemmas -/

theorem hexEncode_length (bs : List Nat) : (hexEncode bs).length = 2 * bs.length := by
  induction bs with
  | nil => rfl
  | cons b bs ih => simp [hexEncode, ih]; omega

theorem hexVal_hexDigitAscii : ∀ d, d < 16 → hexVal (hexDigitAscii d) = some d := by
  decide

theorem hexDigitAscii_range : ∀ d, d < 16 →
    (97 ≤ hexDigitAscii d ∧ hexDigitAscii d ≤ 102) ∨
    (48 ≤ hexDigitAscii d ∧ hexDigitAscii d ≤ 57) := by
  decide

theorem lor_shift : ∀ hi, hi < 16 → ∀ lo, lo < 16 → (hi <<< 4 ||| lo) = 16 * hi + lo := by
  decide

theorem hexDecodeAux_encode (bs : List Nat) (hb : ∀ b ∈ bs, b < 256) :
    ∀ i, hexDecodeAux i (hexEncode bs) = .ok bs := by
  induction bs with
  | nil => intro i; rfl
  | cons b bs ih =>
    intro i
    have hblt : b < 256 := hb b (List.mem_cons_self b bs)
    have hhi : b / 16 < 16 := by omega
    have hlo : b % 16 < 16 := by omega
    have hrest : ∀ x ∈ bs, x < 256 := fun x hx => hb x (List.mem_cons_of_mem b hx)
    simp only [hexEncode, hexDecodeAux, hexVal_hexDigitAscii _ hhi,
      hexVal_hexDigitAscii _ hlo, ih hrest]
    rw [lor_shift _ hhi _ hlo]
    have : 16 * (b / 16) + b % 16 = b := by omega
    rw [this]

theorem hexEncode_chars (bs : List Nat) (hb : ∀ b ∈ bs, b < 256) :
    ∀ c ∈ hexEncode bs, (97 ≤ c ∧ c ≤ 102) ∨ (48 ≤ c ∧ c ≤ 57) := by
  induction bs with
  | nil => simp [hexEncode]
  | cons b bs ih =>
    intro c hc
    have hblt : b < 256 := hb b (by simp)
    simp only [hexEncode, List.mem_cons] at hc
    rcases hc with h | h | h
    · subst h
      exact hexDigitAscii_range (b / 16) (by omega)
    · subst h
      exact hexDigitAscii_range (b % 16) (by omega)
    · exact ih (fun x hx => hb x (by simp [hx])) c h

theorem hexVal_lower {c v : Nat} (h : hexVal c = some v) :
    v < 16 ∧ hexDigitAscii v = lowerHex c := by
  unfold hexVal at h
  split_ifs at h with h1 h2 h3 <;> simp only [Option.some.injEq] at h <;> subst h <;>
    refine ⟨by omega, ?_⟩ <;> unfold hexDigitAscii lowerHex <;> split_ifs <;> omega

/-- Success side of the pair scan: when every character is a hex digit the
scan returns bytes whose re-encoding is the case-normalized input. -/
theorem hexAux_ok : ∀ n s i, s.length = 2 * n → (∀ c ∈ s, hexVal c ≠ none) →
    ∃ bs, hexDecodeAux i s = .ok bs ∧ hexEncode bs = s.map lowerHex ∧
      bs.length = n ∧ (∀ b ∈ bs, b < 256) := by
  intro n
  induction n with
  | zero =>
    intro s i hlen _
    have : s = [] := List.eq_nil_of_length_eq_zero (by omega)
    subst this
    exact ⟨[], rfl, rfl, rfl, by simp⟩
  | succ n ih =>
    intro s i hlen hall
    match s, hlen with
    | c1 :: c2 :: rest, hlen =>
      have h1 : hexVal c1 ≠ none := hall c1 (by simp)
      have h2 : hexVal c2 ≠ none := hall c2 (by simp)
      obtain ⟨hi, hhi⟩ := Option.ne_none_iff_exists'.mp h1
      obtain ⟨lo, hlo⟩ := Option.ne_none_iff_exists'.mp h2
      have hrestlen : rest.length = 2 * n := by
        simp only [List.length_cons] at hlen
        omega
      have hrestall : ∀ c ∈ rest, hexVal c ≠ none := fun c hc => hall c (by simp [hc])
      obtain ⟨bs, hbs, henc, hln, hbnd⟩ := ih rest (i + 1) hrestlen hrestall
      obtain ⟨hhi16, hhid⟩ := hexVal_lower hhi
      obtain ⟨hlo16, hlod⟩ := hexVal_lower hlo
      refine ⟨(hi <<< 4 ||| lo) :: bs, ?_, ?_, ?_, ?_⟩
      · simp only [hexDecodeAux, hhi, hlo, hbs]
      · rw [lor_shift _ hhi16 _ hlo16]
        have hdiv : (16 * hi + lo) / 16 = hi := by omega
        have hmod : (16 * hi + lo) % 16 = lo := by omega
        simp only [hexEncode, hdiv, hmod, hhid, hlod, henc, List.map_cons]
      · simpa using hln
      · intro b hbmem
        rcases List.mem_cons.mp hbmem with h | h
        · subst h; rw [lor_shift _ hhi16 _ hlo16]; omega
        · exact hbnd b h

/-- Error side of the pair scan: the first invalid character, at position
`k` from the start, is reported with character position `2*i + k`. -/
theorem hexAux_bad : ∀ n s i k, s.length = 2 * n → k < s.length →
    hexVal (s.getD k 0) = none → (∀ j, j < k → hexVal (s.getD j 0) ≠ none) →
    hexDecodeAux i s = .error (.InvalidHexCharacter (s.getD k 0) (2 * i + k)) := by
  intro n
  induction n with
  | zero =>
    intro s i k hlen hk _ _
    omega
  | succ n ih =>
    intro s i k hlen hk hbad hbefore
    match s, hlen with
    | c1 :: c2 :: rest, hlen =>
      match k with
      | 0 =>
        have hbad0 : hexVal c1 = none := by simpa using hbad
        simp only [hexDecodeAux, hbad0, List.getD_cons_zero, Nat.add_zero]
      | 1 =>
        have hc1 : hexVal c1 ≠ none := by
          have := hbefore 0 (by omega)
          simpa using this
        obtain ⟨hi, hhi⟩ := Option.ne_none_iff_exists'.mp hc1
        have hbad1 : hexVal c2 = none := by simpa using hbad
        simp only [hexDecodeAux, hhi, hbad1, List.getD_cons_succ, List.getD_cons_zero]
      | k + 2 =>
        have hc1 : hexVal c1 ≠ none := by
          have := hbefore 0 (by omega)
          simpa using this
        have hc2 : hexVal c2 ≠ none := by
          have := hbefore 1 (by omega)
          simpa using this
        obtain ⟨hi, hhi⟩ := Option.ne_none_iff_exists'.mp hc1
        obtain ⟨lo, hlo⟩ := Option.ne_none_iff_exists'.mp hc2
        have hrestlen : rest.length = 2 * n := by
          simp only [List.length_cons] at hlen
          omega
        have hkrest : k < rest.length := by
          simp at hk
          omega
        have hbadrest : hexVal (rest.getD k 0) = none := by
          simpa using hbad
        have hbeforerest : ∀ j, j < k → hexVal (rest.getD j 0) ≠ none := by
          intro j hj
          have := hbefore (j + 2) (by omega)
          simpa using this
        have := ih rest (i + 1) k hrestlen hkrest hbadrest hbeforerest
        simp only [hexDecodeAux, hhi, hlo, this, List.getD_cons_succ]
        have : 2 * (i + 1) + k = 2 * i + (k + 2) := by omega
        rw [this]

/-! ### Raw-byte name order lemmas -/

theorem nameLt_irrefl : ∀ a, nameLt a a = false := by
  intro a
  induction a with
  | nil => rfl
  | cons x xs ih => simp [nameLt, ih]

theorem nameLt_asymm : ∀ a b, nameLt a b = true → nameLt b a = false := by
  intro a
  induction a with
  | nil =>
    intro b h
    cases b with
    | nil => simpa [nameLt] using h
    | cons y ys => simp [nameLt]
  | cons x xs ih =>
    intro b h
    cases b with
    | nil => simp [nameLt] at h
    | cons y ys =>
      simp only [nameLt] at h ⊢
      by_cases hxy : x < y
      · have hyx : ¬ y < x := by omega
        simp [hxy, hyx]
      · by_cases hyx : y < x
        · simp [hxy, hyx] at h
        · simp only [hxy, hyx, if_false] at h ⊢
          exact ih ys h

theorem nameLt_conn : ∀ a b, nameLt a b = false → nameLt b a = false → a = b := by
  intro a
  induction a with
  | nil =>
    intro b h1 _
    cases b with
    | nil => rfl
    | cons y ys => simp [nameLt] at h1
  | cons x xs ih =>
    intro b h1 h2
    cases b with
    | nil => simp [nameLt] at h2
    | cons y ys =>
      simp only [nameLt] at h1 h2
      by_cases hxy : x < y
      · simp [hxy] at h1
      · by_cases hyx : y < x
        · simp [hyx, hxy] at h2
        · have hx : x = y := by omega
          subst hx
          simp only [hxy, hyx, if_false] at h1 h2
          rw [ih ys h1 h2]

theorem nameLt_trans : ∀ a b c, nameLt a b = true → nameLt b c = true → nameLt a c = true := by
  intro a
  induction a with
  | nil =>
    intro b c h1 h2
    cases c with
    | nil => cases b <;> simp [nameLt] at h2
    | cons z zs => simp [nameLt]
  | cons x xs ih =>
    intro b c h1 h2
    cases b with
    | nil => simp [nameLt] at h1
    | cons y ys =>
      cases c with
      | nil => simp [nameLt] at h2
      | cons z zs =>
        simp only [nameLt] at h1 h2 ⊢
        by_cases hxy : x < y
        · by_cases hyz : y < z
          · simp [show x < z by omega]
          · by_cases hzy : z < y
            · simp [hyz, hzy] at h2
            · have hz : y = z := by omega
              subst hz
              simp [hxy]
        · by_cases hyx : y < x
          · simp [hxy, hyx] at h1
          · have hx : x = y := by omega
            subst hx
            simp only [hxy, hyx, if_false] at h1
            by_cases hxz : x < z
            · simp [hxz]
            · by_cases hzx : z < x
              · simp [hxz, hzx] at h2
              · simp only [hxz, hzx, if_false] at h2 ⊢
                exact ih ys zs h1 h2

theorem nameLt_tri (a b : List Nat) :
    (nameLt a b = true ∧ nameLt b a = false ∧ a ≠ b) ∨
    (nameLt a b = false ∧ nameLt b a = false ∧ a = b) ∨
    (nameLt a b = false ∧ nameLt b a = true ∧ a ≠ b) := by
  by_cases h1 : nameLt a b = true
  · refine Or.inl ⟨h1, nameLt_asymm a b h1, ?_⟩
    intro he
    subst he
    rw [nameLt_irrefl] at h1
    exact Bool.false_ne_true h1
  · have h1f : nameLt a b = false := by simpa using h1
    by_cases h2 : nameLt b a = true
    · refine Or.inr (Or.inr ⟨h1f, h2, ?_⟩)
      intro he
      subst he
      rw [nameLt_irrefl] at h2
      exact Bool.false_ne_true h2
    · have h2f : nameLt b a = false := by simpa using h2
      exact Or.inr (Or.inl ⟨h1f, h2f, nameLt_conn a b h1f h2f⟩)

/-- Helper for insert commutation: the strictly-smaller-key case. -/
theorem btreeInsert_comm_lt (k1 k2 : List Nat) (v1 v2 : Metadata × TreeItem)
    (hlt : nameLt k1 k2 = true) (hgt : nameLt k2 k1 = false) :
    ∀ m, btreeInsert k1 v1 (btreeInsert k2 v2 m) = btreeInsert k2 v2 (btreeInsert k1 v1 m) := by
  intro m
  induction m with
  | nil => simp [btreeInsert, hlt, hgt]
  | cons hd tl ih =>
    obtain ⟨k3, v3⟩ := hd
    rcases nameLt_tri k2 k3 with ⟨h23, h32, _⟩ | ⟨h23, h32, heq⟩ | ⟨h23, h32, _⟩
    · have h13 : nameLt k1 k3 = true := nameLt_trans k1 k2 k3 hlt h23
      simp [btreeInsert, hlt, hgt, h23, h32, h13]
    · subst heq
      simp [btreeInsert, hlt, hgt, h23, h32]
    · rcases nameLt_tri k1 k3 with ⟨h13, h31, _⟩ | ⟨h13, h31, heq13⟩ | ⟨h13, h31, _⟩
      · simp [btreeInsert, hlt, hgt, h23, h32, h13, h31]
      · subst heq13
        simp [btreeInsert, hlt, hgt, h23, h32, h13, h31]
      · simp only [btreeInsert, h23, h32, if_false, if_true, h13, h31]
        simp [btreeInsert, h13, h31, h23, h32, ih]

/-- Embedded `BTreeMap::insert` commutes for distinct keys. -/
theorem btreeInsert_comm (k1 k2 : List Nat) (v1 v2 : Metadata × TreeItem) (hne : k1 ≠ k2) :
    ∀ m, btreeInsert k1 v1 (btreeInsert k2 v2 m) = btreeInsert k2 v2 (btreeInsert k1 v1 m) := by
  rcases nameLt_tri k1 k2 with ⟨h12, h21, _⟩ | ⟨_, _, heq⟩ | ⟨h12, h21, _⟩
  · exact btreeInsert_comm_lt k1 k2 v1 v2 h12 h21
  · exact absurd heq hne
  · intro m
    exact (btreeInsert_comm_lt k2 k1 v2 v1 h21 h12 m).symm

/-- Folding a pointwise-commuting step over a permutation gives equal
results. -/
theorem foldl_perm {α β : Type _} (f : β → α → β) {l₁ l₂ : List α} (hp : l₁.Perm l₂) :
    (∀ x ∈ l₁, ∀ y ∈ l₁, ∀ z, f (f z x) y = f (f z y) x) →
    ∀ b, l₁.foldl f b = l₂.foldl f b := by
  induction hp with
  | nil => intro _ b; rfl
  | cons x p ih =>
    intro hcomm b
    simp only [List.foldl_cons]
    exact ih (fun a ha c hc z =>
      hcomm a (List.mem_cons_of_mem x ha) c (List.mem_cons_of_mem x hc) z) (f b x)
  | swap x y l =>
    intro hcomm b
    simp only [List.foldl_cons]
    rw [hcomm y (by simp) x (by simp) b]
  | trans p1 p2 ih1 ih2 =>
    intro hcomm b
    rw [ih1 hcomm b]
    exact ih2 (fun a ha c hc z =>
      hcomm a (p1.mem_iff.mpr ha) c (p1.mem_iff.mpr hc) z) b

/-! ### Directory construction lemmas -/

theorem any_name_false {acc : List (List Nat × Mode × OID)} {n : List Nat}
    (h : acc.any (fun e => e.1 = n) = false) : n ∉ acc.map fun t => t.1 := by
  intro hmem
  obtain ⟨e, he, heq⟩ := List.mem_map.mp hmem
  have := List.any_eq_false.mp h e he
  simp [heq] at this

theorem dirBuildAux_ok_names :
    ∀ (l acc d : List (List Nat × Mode × OID)), dirBuildAux acc l = .ok d →
      ((acc.map fun t => t.1).Nodup ∧ ∀ n ∈ acc.map fun t => t.1, n ≠ []) →
      ((d.map fun t => t.1).Nodup ∧ ∀ n ∈ d.map fun t => t.1, n ≠ []) := by
  intro l
  induction l with
  | nil =>
    intro acc d h hinv
    simp only [dirBuildAux, Except.ok.injEq] at h
    subst h
    exact hinv
  | cons hd rest ih =>
    intro acc d h hinv
    obtain ⟨n, m, c⟩ := hd
    by_cases hn : n = []
    · simp [dirBuildAux, dirInsert, hn] at h
    · by_cases hdup : acc.any (fun e => e.1 = n) = true
      · simp [dirBuildAux, dirInsert, hn, hdup] at h
      · have hdupf : acc.any (fun e => e.1 = n) = false := Bool.eq_false_iff.mpr hdup
        have hstep : dirBuildAux (acc ++ [(n, m, c)]) rest = .ok d := by
          simpa [dirBuildAux, dirInsert, hn, hdupf] using h
        apply ih _ d hstep
        constructor
        · rw [List.map_append]
          rw [List.nodup_append]
          refine ⟨hinv.1, by simp, ?_⟩
          intro x hx hx2
          simp at hx2
          subst hx2
          exact any_name_false hdupf hx
        · intro x hx
          rw [List.map_append] at hx
          rcases List.mem_append.mp hx with h1 | h1
          · exact hinv.2 x h1
          · simp at h1
            subst h1
            exact hn

theorem dirBuildAux_dup :
    ∀ (l acc : List (List Nat × Mode × OID)),
      ¬ ((acc.map fun t => t.1) ++ (l.map fun t => t.1)).Nodup →
      (∀ n ∈ (acc.map fun t => t.1) ++ (l.map fun t => t.1), n ≠ []) →
      (acc.map fun t => t.1).Nodup →
      dirBuildAux acc l = .error .DuplicateEntryName := by
  intro l
  induction l with
  | nil =>
    intro acc hdup _ hacc
    simp at hdup
    exact absurd hacc hdup
  | cons hd rest ih =>
    intro acc hdup hne hacc
    obtain ⟨n, m, c⟩ := hd
    have hn : n ≠ [] := hne n (by simp)
    by_cases hmem : acc.any (fun e => e.1 = n) = true
    · simp [dirBuildAux, dirInsert, hn, hmem]
    · have hmemf : acc.any (fun e => e.1 = n) = false := Bool.eq_false_iff.mpr hmem
      have hstep :
          dirBuildAux acc ((n, m, c) :: rest) = dirBuildAux (acc ++ [(n, m, c)]) rest := by
        simp [dirBuildAux, dirInsert, hn, hmemf]
      rw [hstep]
      apply ih (acc ++ [(n, m, c)])
      · intro hcon
        apply hdup
        rw [List.map_append] at hcon
        rw [List.append_assoc] at hcon
        simpa using hcon
      · intro x hx
        apply hne x
        rw [List.map_append, List.append_assoc] at hx
        simpa using hx
      · rw [List.map_append, List.nodup_append]
        refine ⟨hacc, by simp, ?_⟩
        intro x hx hx2
        simp at hx2
        subst hx2
        exact any_name_false hmemf hx

theorem dirBuildAux_empty :
    ∀ (l acc : List (List Nat × Mode × OID)),
      (∃ n ∈ l.map fun t => t.1, n = []) →
      ((acc.map fun t => t.1) ++ (l.map fun t => t.1)).Nodup →
      dirBuildAux acc l = .error .EmptyName := by
  intro l
  induction l with
  | nil =>
    intro acc hex _
    simp at hex
  | cons hd rest ih =>
    intro acc hex hnd
    obtain ⟨n, m, c⟩ := hd
    by_cases hn : n = []
    · simp [dirBuildAux, dirInsert, hn]
    · have hmemf : acc.any (fun e => e.1 = n) = false := by
        rw [List.any_eq_false]
        intro e he
        simp only [decide_eq_true_eq]
        intro heq
        have hnin : n ∉ acc.map fun t => t.1 := by
          have := (List.nodup_append.mp hnd).2.2
          intro hmem
          exact this hmem (by simp)
        exact hnin (List.mem_map.mpr ⟨e, he, heq⟩)
      have hstep :
          dirBuildAux acc ((n, m, c) :: rest) = dirBuildAux (acc ++ [(n, m, c)]) rest := by
        simp [dirBuildAux, dirInsert, hn, hmemf]
      rw [hstep]
      apply ih (acc ++ [(n, m, c)])
      · obtain ⟨x, hx, hxe⟩ := hex
        simp only [List.map_cons, List.mem_cons] at hx
        rcases hx with h1 | h1
        · exact absurd (h1 ▸ hxe) hn
        · exact ⟨x, h1, hxe⟩
      · rw [List.map_append, List.append_assoc]
        simpa using hnd

/-! ### Claim theorems -/

set_option maxRecDepth 40000

/-- Claim C1: the claim states each directory entry is encoded as the
6-digit octal mode, a single space, the name, a NUL and the 20 raw child
identifier bytes.  The source concatenates the mode digits directly with
the name: the one-entry directory (name `"a"`, a regular `0o100600` file,
child the empty blob) encodes as `tree 28\0100644a\0<id>` — no space, and
content length 28 instead of the 29 the claimed layout would give. -/
theorem tree_encoding_missing_space :
    tree_as_bytes 1 [([97], ⟨false, false, 0o100600⟩, TreeItem.blob (Blob.new []))] =
      [116, 114, 101, 101, 32, 50, 56, 0] ++ [49, 48, 48, 54, 52, 52] ++ [97] ++ [0] ++
        [230, 157, 226, 155, 178, 209, 214, 67, 75, 139, 41, 174, 119, 90, 216, 194,
         228, 140, 83, 145] ∧
    tree_as_bytes 1 [([97], ⟨false, false, 0o100600⟩, TreeItem.blob (Blob.new []))] ≠
      [116, 114, 101, 101, 32, 50, 57, 0] ++ [49, 48, 48, 54, 52, 52] ++ [32] ++ [97] ++ [0] ++
        [230, 157, 226, 155, 178, 209, 214, 67, 75, 139, 41, 174, 119, 90, 216, 194,
         228, 140, 83, 145] := by
  exact ⟨by decide, by decide⟩

/-- Claim C2: the claim (and the source's own comment) select
`NonExecutableGroupWriteableFile` on the group-write bit `0o020`; the
source tests `Lsb0` bit 5, which is the group-read bit `0o040`.  A plain
`0o100644` file (`rw-r--r--`) is therefore classified group-writeable by
the code while the claimed decision chain yields `NonExecutableFile`. -/
theorem mode_selection_group_bit_bug :
    entryMode ⟨false, false, 0o100644⟩ = Mode.NonExecutableGroupWriteableFile ∧
    entryModeSpec ⟨false, false, 0o100644⟩ = Mode.NonExecutableFile ∧
    entryMode ⟨false, false, 0o100644⟩ ≠ entryModeSpec ⟨false, false, 0o100644⟩ := by
  exact ⟨by decide, by decide, by decide⟩

/-- Claim C3: two directory objects holding the same entry set — same
names, metadata (hence modes) and child items, i.e. entry lists that are
permutations of each other with no repeated name — receive the same
identifier no matter the insertion (traversal) order, because
`BTreeMap::insert` is order-insensitive for distinct keys. -/
theorem tree_id_insertion_order_invariant (fuel : Nat)
    (l₁ l₂ : List (List Nat × Metadata × TreeItem))
    (hperm : l₁.Perm l₂) (hnodup : (l₁.map fun e => e.1).Nodup) :
    treeId fuel (buildTree l₁) = treeId fuel (buildTree l₂) := by
  have hpw : l₁.Pairwise fun a b => a.1 ≠ b.1 := List.pairwise_map.mp hnodup
  have hforall := hpw.forall (by intro x y h; exact h.symm)
  have hcomm : ∀ x ∈ l₁, ∀ y ∈ l₁, ∀ z : List (List Nat × Metadata × TreeItem),
      btreeInsert y.1 y.2 (btreeInsert x.1 x.2 z) =
        btreeInsert x.1 x.2 (btreeInsert y.1 y.2 z) := by
    intro x hx y hy z
    by_cases hxy : x = y
    · subst hxy
      rfl
    · exact btreeInsert_comm y.1 x.1 y.2 x.2 (Ne.symm (hforall hx hy hxy)) z
  have hfold := foldl_perm (fun acc e => btreeInsert e.1 e.2 acc) hperm hcomm []
  unfold treeId buildTree
  rw [hfold]

/-- Witness for C3: swapping two concrete entries leaves the identifier
unchanged. -/
theorem tree_id_insertion_order_invariant_witness :
    treeId 1 (buildTree
      [([97], ⟨false, false, 0o100600⟩, TreeItem.blob (Blob.new [])),
       ([98], ⟨false, false, 0o100600⟩, TreeItem.blob (Blob.new [104]))]) =
    treeId 1 (buildTree
      [([98], ⟨false, false, 0o100600⟩, TreeItem.blob (Blob.new [104])),
       ([97], ⟨false, false, 0o100600⟩, TreeItem.blob (Blob.new []))]) :=
  tree_id_insertion_order_invariant 1 _ _
    (List.Perm.swap
      ((([98], ⟨false, false, 0o100600⟩, TreeItem.blob (Blob.new [104]))) :
        List Nat × Metadata × TreeItem)
      ((([97], ⟨false, false, 0o100600⟩, TreeItem.blob (Blob.new []))) :
        List Nat × Metadata × TreeItem) [])
    (by decide)

/-- Claim C4: for every byte sequence, `Blob::as_bytes` is `"blob "`, then
the ASCII decimal of the content byte length — digits only, no leading
zero, exactly `"0"` for empty content — then a NUL, then exactly the
content. -/
theorem blob_encoding_spec (b : Blob) :
    b.as_bytes = [98, 108, 111, 98, 32] ++ decimalAscii b.bytes.length ++ [0] ++ b.bytes ∧
    digitsVal (decimalAscii b.bytes.length) = b.bytes.length ∧
    (∀ d ∈ decimalAscii b.bytes.length, 48 ≤ d ∧ d ≤ 57) ∧
    (b.bytes = [] → decimalAscii b.bytes.length = [48]) ∧
    (b.bytes ≠ [] → (decimalAscii b.bytes.length).head? ≠ some 48) := by
  obtain ⟨h1, _, h3, h4, h5⟩ := decimalAscii_spec b.bytes.length
  refine ⟨rfl, h1, h3, ?_, ?_⟩
  · intro he
    apply h4
    simp [he]
  · intro hne
    apply h5
    simpa using hne

/-- Witness for C4 at empty and two-byte contents. -/
theorem blob_encoding_spec_witness :
    decimalAscii 0 = [48] ∧ (decimalAscii 2).head? ≠ some 48 ∧
    (Blob.new [104, 105]).as_bytes = [98, 108, 111, 98, 32, 50, 0, 104, 105] :=
  ⟨(blob_encoding_spec (Blob.new [])).2.2.2.1 rfl,
   (blob_encoding_spec (Blob.new [104, 105])).2.2.2.2 (by decide),
   (blob_encoding_spec (Blob.new [104, 105])).1.trans (by decide)⟩

/-- Claim C5: the 14-byte content `"this is a test"` encodes to
`blob 14\0this is a test` and its identifier — the SHA-1 digest of that
encoding — prints as `a8a940627d132695a9769df883f85992f0ff4a43`. -/
theorem blob_test_vector :
    (Blob.new [116, 104, 105, 115, 32, 105, 115, 32, 97, 32, 116, 101, 115, 116]).as_bytes =
      [98, 108, 111, 98, 32, 49, 52, 0,
       116, 104, 105, 115, 32, 105, 115, 32, 97, 32, 116, 101, 115, 116] ∧
    (Blob.new [116, 104, 105, 115, 32, 105, 115, 32, 97, 32, 116, 101, 115, 116]).id =
      ⟨sha1 (Blob.new [116, 104, 105, 115, 32, 105, 115, 32, 97, 32,
        116, 101, 115, 116]).as_bytes⟩ ∧
    ((Blob.new [116, 104, 105, 115, 32, 105, 115, 32, 97, 32, 116, 101, 115, 116]).id).as_hex =
      [97, 56, 97, 57, 52, 48, 54, 50, 55, 100, 49, 51, 50, 54, 57, 53, 97, 57, 55, 54, 57,
       100, 102, 56, 56, 51, 102, 56, 53, 57, 57, 50, 102, 48, 102, 102, 52, 97, 52, 51] := by
  exact ⟨by decide, rfl, by decide⟩

/-- Claim C6: hex decoding inverts hex encoding on every 20-byte
identifier, and the encoding is exactly 40 lowercase hex characters. -/
theorem oid_hex_roundtrip (o : OID) (hlen : o.bytes.length = 20)
    (hb : ∀ b ∈ o.bytes, b < 256) :
    OID.from_hex o.as_hex = .ok o ∧ o.as_hex.length = 40 ∧
    (∀ c ∈ o.as_hex, (97 ≤ c ∧ c ≤ 102) ∨ (48 ≤ c ∧ c ≤ 57)) := by
  have hlen40 : (OID.as_hex o).length = 40 := by
    unfold OID.as_hex
    rw [hexEncode_length, hlen]
  refine ⟨?_, hlen40, ?_⟩
  · unfold OID.from_hex
    rw [if_neg (by omega)]
    unfold hexDecode
    rw [if_neg (by omega)]
    unfold OID.as_hex
    rw [hexDecodeAux_encode o.bytes hb 0]
  · unfold OID.as_hex
    exact hexEncode_chars o.bytes hb

/-- Witness for C6 at the all-zero identifier. -/
theorem oid_hex_roundtrip_witness :
    OID.from_hex (OID.as_hex ⟨List.replicate 20 0⟩) = .ok ⟨List.replicate 20 0⟩ :=
  (oid_hex_roundtrip ⟨List.replicate 20 0⟩ (by decide) (by decide)).1

/-- Claim C7: `OID::from_hex` returns the invalid-length error carrying
the actual length exactly when the input is not 40 characters; on
40-character inputs an invalid-character error appears exactly when a
non-hex character is present, carrying the first offending character and
its position; and on success the result re-encodes to the case-normalized
input. -/
theorem oid_from_hex_errors :
    (∀ s : List Nat,
      OID.from_hex s = .error (.InvalidHex (.TooShort s.length)) ↔ s.length ≠ 40) ∧
    (∀ s : List Nat, s.length = 40 →
      ((∃ c i, OID.from_hex s =
          .error (.InvalidHex (.FromHexError (.InvalidHexCharacter c i)))) ↔
        ∃ c ∈ s, hexVal c = none)) ∧
    (∀ s : List Nat, ∀ k, s.length = 40 → k < 40 → hexVal (s.getD k 0) = none →
      (∀ j, j < k → hexVal (s.getD j 0) ≠ none) →
      OID.from_hex s =
        .error (.InvalidHex (.FromHexError (.InvalidHexCharacter (s.getD k 0) k)))) ∧
    (∀ s : List Nat, s.length = 40 → (∀ c ∈ s, hexVal c ≠ none) →
      ∃ o, OID.from_hex s = .ok o ∧ o.as_hex = s.map lowerHex) := by
  have key : ∀ (s : List Nat) (k : Nat), s.length = 40 → k < 40 →
      hexVal (s.getD k 0) = none → (∀ j, j < k → hexVal (s.getD j 0) ≠ none) →
      OID.from_hex s =
        .error (.InvalidHex (.FromHexError (.InvalidHexCharacter (s.getD k 0) k))) := by
    intro s k hlen hk hbad hbefore
    have hb := hexAux_bad 20 s 0 k (by omega) (by omega) hbad hbefore
    unfold OID.from_hex
    rw [if_neg (by omega)]
    unfold hexDecode
    rw [if_neg (by omega)]
    rw [hb]
    have h0 : 2 * 0 + k = k := by omega
    rw [h0]
  have okcase : ∀ s : List Nat, s.length = 40 → (∀ c ∈ s, hexVal c ≠ none) →
      ∃ o, OID.from_hex s = .ok o ∧ o.as_hex = s.map lowerHex := by
    intro s hlen hall
    obtain ⟨bs, hbs, henc, _, _⟩ := hexAux_ok 20 s 0 (by omega) hall
    refine ⟨⟨bs⟩, ?_, ?_⟩
    · unfold OID.from_hex
      rw [if_neg (by omega)]
      unfold hexDecode
      rw [if_neg (by omega)]
      rw [hbs]
    · simpa [OID.as_hex] using henc
  refine ⟨?_, ?_, key, okcase⟩
  · intro s
    constructor
    · intro h
      by_contra hc
      unfold OID.from_hex at h
      rw [if_neg (by omega)] at h
      cases hd : hexDecode s with
      | error e =>
        rw [hd] at h
        simp at h
      | ok bs =>
        rw [hd] at h
        simp at h
    · intro hne
      unfold OID.from_hex
      rw [if_pos hne]
  · intro s hlen
    constructor
    · rintro ⟨c, i, h⟩
      by_contra hno
      push_neg at hno
      obtain ⟨o, ho, _⟩ := okcase s hlen hno
      rw [ho] at h
      simp at h
    · intro hex
      have hP : ∃ j, hexVal (s.getD j 0) = none ∧ j < s.length := by
        obtain ⟨c, hc, hcv⟩ := hex
        obtain ⟨i, hi, hci⟩ := List.mem_iff_getElem.mp hc
        refine ⟨i, ?_, hi⟩
        rw [List.getD_eq_getElem s 0 hi, hci]
        exact hcv
      set k := Nat.find hP with hkdef
      obtain ⟨hkbad, hklt⟩ := Nat.find_spec hP
      have hkmin : ∀ j, j < k → hexVal (s.getD j 0) ≠ none := by
        intro j hj
        have := Nat.find_min hP hj
        intro hbadj
        exact this ⟨hbadj, by omega⟩
      exact ⟨s.getD k 0, k, key s k hlen (by omega) hkbad hkmin⟩

/-- Witness for C7: too-short input `"aaa"` reports length 3; the
40-character string with `'g'` at index 3 reports that character and
position. -/
theorem oid_from_hex_errors_witness :
    OID.from_hex [97, 97, 97] = .error (.InvalidHex (.TooShort 3)) ∧
    OID.from_hex [48, 49, 50, 103, 51, 52, 53, 54, 55, 56, 57, 49, 97, 98, 99, 100, 101,
        102, 97, 98, 99, 100, 101, 102, 49, 50, 51, 52, 53, 54, 55, 56, 57, 48, 49, 50,
        51, 52, 53, 54] =
      .error (.InvalidHex (.FromHexError (.InvalidHexCharacter 103 3))) :=
  ⟨(oid_from_hex_errors.1 [97, 97, 97]).mpr (by decide),
   oid_from_hex_errors.2.2.1
     [48, 49, 50, 103, 51, 52, 53, 54, 55, 56, 57, 49, 97, 98, 99, 100, 101, 102, 97, 98,
      99, 100, 101, 102, 49, 50, 51, 52, 53, 54, 55, 56, 57, 48, 49, 50, 51, 52, 53, 54]
     3 (by decide) (by decide) (by decide) (by decide)⟩

/-- Claim C8: directory-object construction rejects a repeated entry name
with `DuplicateEntryName` and a zero-length name with `EmptyName`, so
every successfully built directory has unique, non-empty names
(construction modelled from the spec; the source never reaches an
insertion step). -/
theorem directory_build_errors (l : List (List Nat × Mode × OID)) :
    (∀ d, dirBuild l = .ok d →
      ((d.map fun t => t.1).Nodup ∧ ∀ n ∈ d.map fun t => t.1, n ≠ [])) ∧
    (¬ (l.map fun t => t.1).Nodup → (∀ n ∈ l.map fun t => t.1, n ≠ []) →
      dirBuild l = .error .DuplicateEntryName) ∧
    ((∃ n ∈ l.map fun t => t.1, n = []) → (l.map fun t => t.1).Nodup →
      dirBuild l = .error .EmptyName) := by
  refine ⟨?_, ?_, ?_⟩
  · intro d h
    exact dirBuildAux_ok_names l [] d h ⟨by simp, by simp⟩
  · intro hdup hne
    exact dirBuildAux_dup l [] (by simpa using hdup) (by simpa using hne) (by simp)
  · intro hex hnd
    exact dirBuildAux_empty l [] hex (by simpa using hnd)

/-- Witness for C8: a duplicated name `"a"` and an empty name. -/
theorem directory_build_errors_witness :
    dirBuild [([97], Mode.NonExecutableFile, OID.mk []),
              ([97], Mode.NonExecutableFile, OID.mk [])] = .error .DuplicateEntryName ∧
    dirBuild [([], Mode.NonExecutableFile, OID.mk [])] = .error .EmptyName :=
  ⟨(directory_build_errors _).2.1 (by decide) (by decide),
   (directory_build_errors _).2.2 (by decide) (by decide)⟩

/-- Claim C9: the claim requires a typed `NotADirectory` error when the
root path is not a directory.  The source instead executes `todo!()`
(a panic) on that branch — its `io::Error` result type has no such
variant — and a successful walk returns the still-empty tree. -/
theorem from_dir_not_directory_panics :
    (∀ walk : List (Except Nat Unit), from_dir false walk = .panicked) ∧
    from_dir true [Except.ok ()] = .ok [] := by
  constructor
  · intro walk
    rfl
  · rfl

/-- Claim C10: the by-value, shared-reference and mutable-reference
conversions from a file object to an identifier agree, and all equal the
SHA-1 digest of the canonical encoding; `Blob::id` routes through the
shared-reference path. -/
theorem oid_from_blob_paths_agree (b : Blob) :
    oidFromBlob b = oidFromBlobRef b ∧ oidFromBlobRef b = oidFromBlobMutRef b ∧
    oidFromBlob b = ⟨sha1 b.as_bytes⟩ ∧ b.id = oidFromBlob b :=
  ⟨rfl, rfl, rfl, rfl⟩

end LibGit
